import Mathlib

/-!
Shallow embedding of `intake/gui/source_select.py`.

The module keeps a multi-select GUI widget in sync with an ordered
label-to-object mapping.  We model the relevant widget state as a `Widget`
record: the ordered options mapping (a list of label/value pairs with the
Python `dict` insertion-order semantics) and the current selection
(`widget.value`).  Catalog objects are abstract: a `CatWorld` supplies the
attributes the code reads from them (`name`, the `.cat` parent link, and the
`_entries` listing used by `expand_nested` and by `get_children`).

Python `dict`/`OrderedDict` behaviour is embedded explicitly:

* building a dict from a pair list keeps the first position of a duplicated
  key and its last value (`dictOfList`);
* `d[k] = v` replaces in place when `k` is present and appends otherwise
  (`dictSet`); `d.update(o)` folds `dictSet` (`dictUpdate`);
* the CPython `OrderedDict` iterator raises
  `RuntimeError: OrderedDict mutated during iteration` when the dict is
  mutated while a prefetched next key is pending (modelled in `addLoop`,
  see its docstring).
-/

namespace SourceSelect

variable {α β : Type} [DecidableEq α]

/-- One Python argument that may be a bare instance or a list of instances;
`coerce_to_list` dispatches on `isinstance(items, list)`. -/
inductive ListOr (α : Type) where
  | single (a : α)
  | list (l : List α)
deriving DecidableEq

/-- Embedding of `coerce_to_list(items, preprocess=None)`: coerce an instance
or a list to a list, mapping the optional `preprocess` over the result
(`if preprocess: items = list(map(preprocess, items))`). -/
def coerce_to_list (items : ListOr α) (preprocess : Option (α → α)) : List α :=
  let l := match items with
    | .single a => [a]
    | .list l => l
  match preprocess with
  | none => l
  | some f => l.map f

/-- State of the `panel` multi-select widget that the selector keeps up to
date: the ordered options mapping (`widget.options`, a Python dict) and the
current selection (`widget.value`).  `widget.labels` and `widget.values` are
the keys and the values of the mapping, in order. -/
structure Widget (α : Type) where
  options : List (String × α)
  value : List α
deriving DecidableEq

/-- Python `d[k] = v` on a (ordered) dict: when `k` is already a key its value
is replaced in place, otherwise the pair is appended at the end. -/
def dictSet (m : List (String × α)) (k : String) (v : α) : List (String × α) :=
  if m.any (fun p => decide (p.1 = k)) then
    m.map (fun p => if p.1 = k then (k, v) else p)
  else m ++ [(k, v)]

/-- Python `d.update(new)`: repeated `d[k] = v` over the pairs of `new`. -/
def dictUpdate (m : List (String × α)) (new : List (String × α)) : List (String × α) :=
  new.foldl (fun m p => dictSet m p.1 p.2) m

/-- Python `dict(pairs)` / `OrderedDict(pairs)`: build a dict from a pair
list; a duplicated key keeps its first position and its last value. -/
def dictOfList (l : List (String × α)) : List (String × α) :=
  dictUpdate [] l

namespace BaseSelector

/-- Property `BaseSelector.labels`: `self.widget.labels`, the option keys. -/
def labels (w : Widget α) : List String :=
  w.options.map Prod.fst

/-- Property `BaseSelector.items`: `self.widget.values`, the option values. -/
def items (w : Widget α) : List α :=
  w.options.map Prod.snd

/-- Property `BaseSelector.selected`: `self.widget.value`. -/
def selected (w : Widget α) : List α :=
  w.value

/-- Embedding of `BaseSelector._create_options(items)`:
`OrderedDict(map(lambda x: (x.name, x), coerce_to_list(items, self.preprocess)))`. -/
def create_options (name : α → String) (pre : Option (α → α)) (items : ListOr α) :
    List (String × α) :=
  dictOfList ((coerce_to_list items pre).map (fun x => (name x, x)))

/-- Embedding of the `BaseSelector.options` setter.  Python branches on the
truthiness of `self.widget.value` only to choose between one batched
`set_param(options=..., value=...)` call and two sequential assignments; both
branches leave the widget with the new options and with
`value = list(options.values())[:1]`. -/
def set_options (name : α → String) (pre : Option (α → α)) (w : Widget α)
    (new : ListOr α) : Widget α :=
  let options := create_options name pre new
  if w.value.isEmpty then
    { options := options, value := (options.map Prod.snd).take 1 }
  else
    { options := options, value := (options.map Prod.snd).take 1 }

/-- Embedding of the `BaseSelector.items` setter: `None` is ignored, any other
input is forwarded to the `options` setter. -/
def set_items (name : α → String) (pre : Option (α → α)) (w : Widget α) :
    Option (ListOr α) → Widget α
  | none => w
  | some items => set_options name pre w items

/-- The `while f'{k}_{count}' in self.labels: count += 1` search of
`BaseSelector.add`, started at `count`.  The candidate labels `k_0`, `k_1`,
... are pairwise distinct strings, so at most `labels.length` of them can
occur in `labels` and the Python loop always stops within
`labels.length + 1` probes; the structural fuel is never exhausted. -/
def freshCountAux (k : String) (labels : List String) : Nat → Nat → Nat
  | 0, count => count
  | fuel + 1, count =>
    if (k ++ "_" ++ Nat.repr count) ∈ labels then
      freshCountAux k labels fuel (count + 1)
    else count

/-- Smallest `count` such that `f'{k}_{count}'` is not among `labels`. -/
def freshCount (k : String) (labels : List String) : Nat :=
  freshCountAux k labels (labels.length + 1) 0

/-- The `for k, v in options.items()` loop of `BaseSelector.add`, iterating
over `processed ++ remaining` where `processed` holds the entries already
visited (none of which entered the relabel branch).

The CPython `OrderedDict` iterator prefetches the key of the next node when
it yields an entry, and its next `__next__` call raises
`RuntimeError: OrderedDict mutated during iteration` when the dict was
mutated while a prefetched key is pending.  Hence entering the relabel branch
(`options.pop(k)` followed by `options[f'{k}_{count}'] = v`) aborts the loop
with `RuntimeError` unless the entry being processed is the last one; in that
case the prefetched key is already exhausted, the loop simply ends, and the
entry appended by `options[...] = v` is never visited.  (Behaviour confirmed
against CPython 3.11.)  The `RuntimeError` is modelled as `.error ()`. -/
def addLoop (wlabels : List String) (witems : List α) :
    List (String × α) → List (String × α) → Except Unit (List (String × α))
  | processed, [] => .ok processed
  | processed, (k, v) :: rest =>
    if k ∈ wlabels ∧ v ∉ witems then
      let fresh := k ++ "_" ++ Nat.repr (freshCount k wlabels)
      if rest.isEmpty then .ok (dictSet processed fresh v)
      else .error ()
    else addLoop wlabels witems (processed ++ [(k, v)]) rest

/-- Embedding of `BaseSelector.add(items)`: build `options` with
`_create_options`, run the relabelling loop over it (which in CPython raises
`RuntimeError` whenever it mutates a non-final entry, see `addLoop`), then
`self.widget.options.update(options)` and
`self.widget.value = list(options.values())[:1]`. -/
def add (name : α → String) (pre : Option (α → α)) (w : Widget α)
    (itemsIn : ListOr α) : Except Unit (Widget α) :=
  let options := create_options name pre itemsIn
  match addLoop (labels w) (items w) [] options with
  | .error e => .error e
  | .ok options' =>
    .ok { options := dictUpdate w.options options',
          value := (options'.map Prod.snd).take 1 }

/-- Embedding of `BaseSelector.remove(items)`: coerce to a list and keep only
the option entries whose value is not among the given items
(`{k: v for k, v in self.options.items() if v not in items}`).  The widget
selection is not touched. -/
def remove (w : Widget α) (itemsIn : ListOr α) : Widget α :=
  let its := coerce_to_list itemsIn none
  { w with options := w.options.filter (fun p => decide (p.2 ∉ its)) }

end BaseSelector

/-- The catalog attributes read by the selector code: `cat.name`, the parent
link `cat.cat` (`None` for a root catalog), and the entry listing
`cat._entries` as pairs of the `_container` tag and the instantiated entry
`e()`. -/
structure CatWorld (α : Type) where
  name : α → String
  parent : α → Option α
  entries : α → List (String × α)

namespace CatSelector

/-- The local helper `get_children(parent)` of `expand_nested`:
`[e() for e in parent._entries.values() if e._container == 'catalog']`. -/
def get_children (W : CatWorld α) (parent : α) : List α :=
  ((W.entries parent).filter (fun e => decide (e.1 = "catalog"))).map Prod.snd

/-- The tree-drawing glyph `down = '│'` of `expand_nested`. -/
def down : String := "│"

/-- The tree-drawing glyph `right = '└──'` of `expand_nested`. -/
def rightGlyph : String := "└──"

/-- Whether `pat` is an initial segment of `s` (on character lists). -/
def listIsPre : List Char → List Char → Bool
  | [], _ => true
  | _ :: _, [] => false
  | p :: ps, c :: cs => (p == c) && listIsPre ps cs

/-- Python substring search used for `right in name` and
`name.split(right)[0]`: `findSplit pat s` returns the characters of `s`
before the first occurrence of the (non-empty) pattern `pat`, and `none`
when `pat` does not occur in `s`. -/
def findSplit (pat : List Char) : List Char → Option (List Char)
  | [] => none
  | c :: cs =>
    if listIsPre pat (c :: cs) then some []
    else (findSplit pat cs).map (fun l => c :: l)

/-- The local `for i, child in enumerate(children): old.insert(index+i+1, ...)`
loop of `expand_nested`, started at position `pos = index + 1`: each child is
inserted one position further right, labelled `f'{prefix} {child.name}'`.
(The Python `list.insert` clamp-to-append case never fires: the position is
always at most the current length.) -/
def insertChildrenFrom (W : CatWorld α) (pre : String) :
    Nat → List α → List (String × α) → List (String × α)
  | _, [], old => old
  | pos, c :: cs, old =>
    insertChildrenFrom W pre (pos + 1) cs
      (old.insertIdx pos (pre ++ " " ++ W.name c, c))

/-- The label prefix computed by `expand_nested` from the parent label:
`f'{name.split(right)[0]}{down} {right}'` when `right` occurs in `name`, and
`right` otherwise. -/
def tree_pre (nm : String) : String :=
  match findSplit rightGlyph.data nm.data with
  | some before => String.mk before ++ down ++ " " ++ rightGlyph
  | none => rightGlyph

/-- Embedding of `CatSelector.expand_nested(event)`: on an empty selection it
returns unchanged; otherwise it takes the first selected object `got`, finds
the label and the index of its first occurrence among the option values
(Python `next(...)` raises `StopIteration`, modelled as `none`, when `got` is
not an option value), inserts the child catalogs of `got` right after it,
each labelled with the tree prefix, and rebuilds the options with
`dict(old)`. -/
def expand_nested (W : CatWorld α) (w : Widget α) (eventNew : List α) :
    Option (Widget α) :=
  match eventNew with
  | [] => some w
  | got :: _ =>
    match w.options.find? (fun p => decide (p.2 = got)) with
    | none => none
    | some (nm, _) =>
      let index := w.options.findIdx (fun p => decide (p.2 = got))
      let newOpts := dictOfList (insertChildrenFrom W (tree_pre nm) (index + 1)
        (get_children W got) w.options)
      some { w with options := newOpts }

/-- The `nested` list of `collapse_nested`:
`[cat for cat in old if getattr(cat, 'cat') is not None]` where `old` is the
list of option values. -/
def nestedOf (W : CatWorld α) (opts : List (String × α)) : List α :=
  (opts.map Prod.snd).filter (fun c => (W.parent c).isSome)

/-- The `parents` set of `collapse_nested`: `{cat.cat for cat in nested}`.
Python builds a set, whose only observations here are membership tests, so a
list faithfully represents it. -/
def parentsOf (W : CatWorld α) (nested : List α) : List α :=
  nested.filterMap W.parent

/-- The `for cat in nested: if cat.cat in parents_to_remove: ...` pass of the
`collapse_nested` loop body: the nested cats whose parent is in `ptr`. -/
def newKidsOf (W : CatWorld α) (nested ptr : List α) : List α :=
  nested.filter (fun c =>
    match W.parent c with
    | some p => decide (p ∈ ptr)
    | none => false)

/-- The `while len(parents_to_remove) > 0 and nestedness > 0` loop of
`collapse_nested`, with `nestedness` as structural fuel, returning the final
`children` list.  State: the current `nested` list, the accumulated
`children`, the processed `removed` set and the current frontier
`parents_to_remove` (`ptr`).  The loop body appends the nested cats whose
parent is in the frontier to `children`, adds the frontier to `removed`,
drops the collected cats from `nested`, and takes as the next frontier those
collected cats that are parents of some originally-nested cat and are not
yet processed.  Python keeps `removed`, `parents` and `parents_to_remove` as
sets whose only observations are membership and emptiness, so lists
represent them faithfully. -/
def collapseChildren (W : CatWorld α) (parents : List α) :
    Nat → List α → List α → List α → List α → List α
  | 0, _, children, _, _ => children
  | fuel + 1, nested, children, removed, ptr =>
    if ptr.isEmpty then children
    else
      collapseChildren W parents fuel
        (nested.filter (fun c => decide (c ∉ children ++ newKidsOf W nested ptr)))
        (children ++ newKidsOf W nested ptr)
        (removed ++ ptr)
        ((children ++ newKidsOf W nested ptr).filter
          (fun c => decide (c ∈ parents ∧ c ∉ removed ++ ptr)))

/-- The number of iterations the `collapse_nested` while loop executes, on
the same state evolution as `collapseChildren`. -/
def collapseIters (W : CatWorld α) (parents : List α) :
    Nat → List α → List α → List α → List α → Nat
  | 0, _, _, _, _ => 0
  | fuel + 1, nested, children, removed, ptr =>
    if ptr.isEmpty then 0
    else
      collapseIters W parents fuel
        (nested.filter (fun c => decide (c ∉ children ++ newKidsOf W nested ptr)))
        (children ++ newKidsOf W nested ptr)
        (removed ++ ptr)
        ((children ++ newKidsOf W nested ptr).filter
          (fun c => decide (c ∈ parents ∧ c ∉ removed ++ ptr))) + 1

/-- Embedding of `CatSelector.collapse_nested(cats, max_nestedness=10)`:
run the loop starting from `parents_to_remove = cats` and remove the
collected `children` from the options. -/
def collapse_nested (W : CatWorld α) (w : Widget α) (cats : List α)
    (max_nestedness : Nat := 10) : Widget α :=
  BaseSelector.remove w (.list
    (collapseChildren W (parentsOf W (nestedOf W w.options)) max_nestedness
      (nestedOf W w.options) [] [] cats))

/-- Number of iterations the `collapse_nested` while loop executes. -/
def collapse_nested_iterations (W : CatWorld α) (w : Widget α) (cats : List α)
    (max_nestedness : Nat := 10) : Nat :=
  collapseIters W (parentsOf W (nestedOf W w.options)) max_nestedness
    (nestedOf W w.options) [] [] cats

/-- Embedding of `CatSelector.remove_selected`: collapse everything nested
under the selected cats, then remove the selected cats themselves.  (Setting
widget options does not change `widget.value` in this module, so both steps
see the same selection.) -/
def remove_selected (W : CatWorld α) (w : Widget α) : Widget α :=
  BaseSelector.remove (collapse_nested W w w.value) (.list w.value)

/-- Specification-side reachability: `ChainTo W S sel c k` holds when there
is a chain `c = c₁, parent c₁ = c₂, ..., parent cⱼ ∈ sel` of length
`j ≤ k` (`j ≥ 1`) whose members `c₁ ... cⱼ` all lie in `S` (the nested
option values).  This is the claim reading of "every option whose chain of
parent-catalog links, up to the nesting depth bound, reaches a selected
catalog". -/
def ChainTo (W : CatWorld α) (S sel : List α) : α → Nat → Prop
  | _, 0 => False
  | c, k + 1 => c ∈ S ∧ ∃ p, W.parent c = some p ∧ (p ∈ sel ∨ ChainTo W S sel p k)

/-- Executable version of `ChainTo`. -/
def chainToB (W : CatWorld α) (S sel : List α) : α → Nat → Bool
  | _, 0 => false
  | c, k + 1 =>
    decide (c ∈ S) &&
      (match W.parent c with
       | none => false
       | some p => decide (p ∈ sel) || chainToB W S sel p k)

/-- Embedding of `CatSelector.callback(event)`: it sets
`remove_button.disabled = not event.new` and calls
`done_callback(event.new)` exactly when a `done_callback` was provided.  The
result is the pair of the new disabled flag and the notification sent (as
`Option`).  `setup` registers this handler (after `expand_nested`, which
notifies nobody) as a watcher of the widget `value` parameter. -/
def callback (done : Option (List α → β)) (eventNew : List α) : Bool × Option β :=
  (eventNew.isEmpty, done.map (fun f => f eventNew))

end CatSelector

namespace SourceSelector

/-- Embedding of `SourceSelector.callback(event)`: it calls
`done_callback(event.new)` exactly when a `done_callback` was provided; the
result is the notification sent.  `setup` registers this handler as the only
watcher of the widget `value` parameter. -/
def callback (done : Option (List α → β)) (eventNew : List α) : Option β :=
  done.map (fun f => f eventNew)

end SourceSelector

/-! ### Concrete instances used by closed theorems -/

/-- Item names for the C1 failing input: `20` is named `a` (clashing with the
existing widget label), `30` is named `b`. -/
def nameC1 : Nat → String := fun n => if n = 20 then "a" else "b"

/-- C1 failing input: a widget already holding an option labelled `a` with
value `10`. -/
def widgetC1 : Widget Nat := { options := [("a", 10)], value := [10] }

/-- Catalog world for the C2 witness: catalog `1` (named `c`) has one child
catalog `2` named `k2`. -/
def worldC2 : CatWorld Nat :=
  { name := fun n => if n = 2 then "k2" else "c"
    parent := fun _ => none
    entries := fun n => if n = 1 then [("catalog", 2)] else [] }

/-- Widget for the C2 witness: only the parent catalog is an option. -/
def widgetC2 : Widget Nat := { options := [("c", 1)], value := [1] }

/-- Catalog world for the C2 counterexample: catalog `1` (named `c`) has one
child catalog `3` named `x`, and an unrelated catalog `2` is also named `x`. -/
def worldC2x : CatWorld Nat :=
  { name := fun n => if n = 1 then "c" else "x"
    parent := fun _ => none
    entries := fun n => if n = 1 then [("catalog", 3)] else [] }

/-- Widget for the C2 counterexample: the options already contain an entry
labelled `└── x` (an earlier expansion of a different parent), which collides
with the label generated for child `3`. -/
def widgetC2x : Widget Nat := { options := [("c", 1), ("└── x", 2)], value := [1] }

/-! ### Generic list/dict lemmas -/

theorem zip_labels_items (l : List (String × α)) :
    (l.map Prod.fst).zip (l.map Prod.snd) = l := by
  rw [← List.unzip_fst, ← List.unzip_snd, List.zip_unzip]

theorem dictSet_of_not_mem (m : List (String × α)) (k : String) (v : α)
    (h : k ∉ m.map Prod.fst) : dictSet m k v = m ++ [(k, v)] := by
  unfold dictSet
  rw [if_neg]
  simp only [List.any_eq_true, decide_eq_true_eq, not_exists, not_and]
  intro p hp
  intro hpk
  exact h (hpk ▸ List.mem_map_of_mem Prod.fst hp)

theorem dictUpdate_of_fresh (m : List (String × α)) (l : List (String × α))
    (hl : (l.map Prod.fst).Nodup)
    (hml : ∀ k ∈ l.map Prod.fst, k ∉ m.map Prod.fst) :
    dictUpdate m l = m ++ l := by
  induction l generalizing m with
  | nil => simp [dictUpdate]
  | cons p l ih =>
    obtain ⟨k, v⟩ := p
    rw [List.map_cons, List.nodup_cons] at hl
    have hk : k ∉ m.map Prod.fst := hml k (by simp)
    have step : dictUpdate m ((k, v) :: l) = dictUpdate (m ++ [(k, v)]) l := by
      simp [dictUpdate, dictSet_of_not_mem m k v hk]
    rw [step, ih (m ++ [(k, v)]) hl.2]
    · simp
    · intro k' hk'
      simp only [List.map_append, List.mem_append]
      rintro (hm | hm)
      · refine hml k' ?_ hm
        rw [List.map_cons]
        exact List.mem_cons_of_mem _ hk'
      · have hkk : k' = k := by simpa using hm
        exact absurd (hkk ▸ hk') hl.1

theorem dictOfList_of_nodup (l : List (String × α)) (hl : (l.map Prod.fst).Nodup) :
    dictOfList l = l := by
  simpa [dictOfList] using dictUpdate_of_fresh [] l hl (by simp)

theorem find?_first {σ : Type} (p : σ → Bool) (A : List σ) (x : σ) (B : List σ)
    (hA : ∀ a ∈ A, p a = false) (hx : p x = true) :
    (A ++ x :: B).find? p = some x := by
  induction A with
  | nil => simp [List.find?_cons_of_pos _ hx]
  | cons a A ih =>
    rw [List.cons_append, List.find?_cons_of_neg _ (by simp [hA a (List.mem_cons_self a A)])]
    exact ih (fun a' ha' => hA a' (List.mem_cons_of_mem _ ha'))

theorem findIdx_first {σ : Type} (p : σ → Bool) (A : List σ) (x : σ) (B : List σ)
    (hA : ∀ a ∈ A, p a = false) (hx : p x = true) :
    (A ++ x :: B).findIdx p = A.length := by
  induction A with
  | nil => simp [List.findIdx_cons, hx]
  | cons a A ih =>
    rw [List.cons_append, List.findIdx_cons, hA a (List.mem_cons_self a A)]
    simp only [cond_false, List.length_cons]
    rw [ih (fun a' ha' => hA a' (List.mem_cons_of_mem _ ha'))]

theorem insertIdx_split {σ : Type} (x : σ) :
    ∀ (pos : Nat) (l : List σ), pos ≤ l.length →
      l.insertIdx pos x = l.take pos ++ x :: l.drop pos := by
  intro pos
  induction pos with
  | zero => intro l _; simp
  | succ pos ih =>
    intro l hl
    cases l with
    | nil => simp at hl
    | cons a l =>
      rw [List.insertIdx_succ_cons, ih l (Nat.succ_le_succ_iff.mp (by simpa using hl))]
      simp

theorem insertChildrenFrom_eq (W : CatWorld α) (pre : String) :
    ∀ (kids : List α) (pos : Nat) (old : List (String × α)), pos ≤ old.length →
      CatSelector.insertChildrenFrom W pre pos kids old =
        old.take pos ++ kids.map (fun c => (pre ++ " " ++ W.name c, c)) ++ old.drop pos := by
  intro kids
  induction kids with
  | nil => intro pos old _; simp [CatSelector.insertChildrenFrom]
  | cons c cs ih =>
    intro pos old hpos
    rw [CatSelector.insertChildrenFrom, insertIdx_split _ pos old hpos]
    have hregroup : old.take pos ++ (pre ++ " " ++ W.name c, c) :: old.drop pos =
        (old.take pos ++ [(pre ++ " " ++ W.name c, c)]) ++ old.drop pos := by simp
    have hlen1 : (old.take pos ++ [(pre ++ " " ++ W.name c, c)]).length = pos + 1 := by
      simp [List.length_take, Nat.min_eq_left hpos]
    have hlen : pos + 1 ≤
        (old.take pos ++ (pre ++ " " ++ W.name c, c) :: old.drop pos).length := by
      rw [hregroup, List.length_append, hlen1]
      omega
    rw [ih (pos + 1) _ hlen, hregroup]
    rw [show pos + 1 = (old.take pos ++ [(pre ++ " " ++ W.name c, c)]).length from hlen1.symm,
      List.take_left, List.drop_left]
    simp

/-! ### Claims C9, C10, C3, C6, C7, C5 -/

/-- Claim C9: for every input, `coerce_to_list` returns a list — a list input
is returned with its elements (mapped by `preprocess` when given, in order),
and a non-list input becomes a one-element list containing that value (mapped
by `preprocess` when given). -/
theorem coerce_to_list_returns_list (a : α) (l : List α) (f : α → α) :
    coerce_to_list (.list l) none = l ∧
    coerce_to_list (.list l) (some f) = l.map f ∧
    coerce_to_list (.single a) none = [a] ∧
    coerce_to_list (.single a) (some f) = [f a] :=
  ⟨rfl, rfl, rfl, rfl⟩

/-- Claim C10: assigning `None` to `BaseSelector.items` is a no-op — the
widget options and value are left exactly as they were — in contrast to any
non-`None` assignment, which overwrites the options with
`_create_options(new)`. -/
theorem set_items_none_noop (name : α → String) (pre : Option (α → α))
    (w : Widget α) :
    BaseSelector.set_items name pre w none = w ∧
    ∀ i, (BaseSelector.set_items name pre w (some i)).options =
      BaseSelector.create_options name pre i := by
  refine ⟨rfl, fun i => ?_⟩
  simp only [BaseSelector.set_items, BaseSelector.set_options]
  split <;> rfl

/-- Claim C3: for every list of items, `BaseSelector.remove` leaves the
options equal to the previous options restricted to the entries whose value
is not in the given list — surviving entries keep their labels and relative
order (the restriction is a `filter`) — and the selection is untouched. -/
theorem remove_filters_options (w : Widget α) (its : List α) :
    (BaseSelector.remove w (.list its)).options =
      w.options.filter (fun p => decide (p.2 ∉ its)) ∧
    (BaseSelector.remove w (.list its)).value = w.value :=
  ⟨rfl, rfl⟩

/-- Claim C6: `labels`, `items`, `options` and `selected` are pure derived
views of the widget state (reading them is a pure function of the state, so
it leaves the widget unchanged), and the options mapping always equals the
pairing of the labels with the items, in order. -/
theorem selector_views_derived (w : Widget α) :
    BaseSelector.labels w = w.options.map Prod.fst ∧
    BaseSelector.items w = w.options.map Prod.snd ∧
    BaseSelector.selected w = w.value ∧
    w.options = (BaseSelector.labels w).zip (BaseSelector.items w) :=
  ⟨rfl, rfl, rfl, (zip_labels_items w.options).symm⟩

/-- Claim C7: when the selection value changes, the registered `callback`
handlers of `CatSelector` and `SourceSelector` invoke `done_callback` with
exactly the new selection value when one was provided, and send no
notification when none was provided. -/
theorem callbacks_notify_done (f : List α → β) (e : List α) :
    (CatSelector.callback (some f) e).2 = some (f e) ∧
    (CatSelector.callback (α := α) (β := β) none e).2 = none ∧
    SourceSelector.callback (some f) e = some (f e) ∧
    SourceSelector.callback (α := α) (β := β) none e = none :=
  ⟨rfl, rfl, rfl, rfl⟩

/-- Claim C5: for every non-`None` input whose (preprocessed) items carry
pairwise distinct names, setting `BaseSelector.items` (which forwards to the
`options` setter) replaces the widget options with the label-to-object
mapping keyed by each item name in input order, and sets the selection to the
singleton list holding the first option value (the empty list when the new
options are empty). -/
theorem set_items_replaces_options (name : α → String) (pre : Option (α → α))
    (w : Widget α) (xs : ListOr α)
    (h : ((coerce_to_list xs pre).map name).Nodup) :
    (BaseSelector.set_items name pre w (some xs)).options =
      (coerce_to_list xs pre).map (fun x => (name x, x)) ∧
    (BaseSelector.set_items name pre w (some xs)).value =
      (coerce_to_list xs pre).take 1 := by
  have hopts : BaseSelector.create_options name pre xs =
      (coerce_to_list xs pre).map (fun x => (name x, x)) := by
    apply dictOfList_of_nodup
    simpa [List.map_map, Function.comp] using h
  constructor
  · simp only [BaseSelector.set_items, BaseSelector.set_options]
    split <;> simpa using hopts
  · simp only [BaseSelector.set_items, BaseSelector.set_options]
    split <;>
      simp [hopts, List.map_map, Function.comp_def]

/-- Claim C1 (code bug): `BaseSelector.add` is meant to store an item whose
label clashes with an existing widget label (but whose value is new) under a
fresh label `label_N`; instead, the relabelling branch mutates the
`OrderedDict` being iterated (`options.pop(k)` then `options[...] = v`), so
whenever it fires on a non-final entry CPython raises
`RuntimeError: OrderedDict mutated during iteration`.  Concretely: the widget
holds an option labelled `a` with value `10`, and two items named `a`
(value `20`) and `b` (value `30`) are added — the claimed outcome is an
option `a_0 ↦ 20`, the actual outcome is the `RuntimeError`. -/
theorem add_mutates_during_iteration :
    BaseSelector.add nameC1 none widgetC1 (.list [20, 30]) = .error () := rfl

/-- Witness for C5 at a concrete input. -/
theorem set_items_replaces_options_witness :
    (BaseSelector.set_items Nat.repr none
        ({ options := [("9", 9)], value := [9] } : Widget Nat)
        (some (.list [1, 2]))).options = [("1", 1), ("2", 2)] ∧
    (BaseSelector.set_items Nat.repr none
        ({ options := [("9", 9)], value := [9] } : Widget Nat)
        (some (.list [1, 2]))).value = [1] := by
  have h := set_items_replaces_options Nat.repr none
    ({ options := [("9", 9)], value := [9] } : Widget Nat) (.list [1, 2])
    (by decide)
  simpa using h

theorem chainTo_zero (W : CatWorld α) (S sel : List α) (c : α) :
    ¬ CatSelector.ChainTo W S sel c 0 := by
  simp [CatSelector.ChainTo]

theorem chainTo_succ (W : CatWorld α) (S sel : List α) (c : α) (k : Nat) :
    CatSelector.ChainTo W S sel c (k + 1) ↔
      c ∈ S ∧ ∃ p, W.parent c = some p ∧
        (p ∈ sel ∨ CatSelector.ChainTo W S sel p k) := by
  rw [CatSelector.ChainTo]

theorem chainTo_nil_sel (W : CatWorld α) (S : List α) :
    ∀ (k : Nat) (c : α), ¬ CatSelector.ChainTo W S [] c k := by
  intro k
  induction k with
  | zero => intro c h; exact chainTo_zero W S [] c h
  | succ k ih =>
    intro c h
    rw [chainTo_succ] at h
    obtain ⟨-, p, -, hor⟩ := h
    rcases hor with h | h
    · simp at h
    · exact ih p h

theorem chainTo_mono_succ (W : CatWorld α) (S sel : List α) :
    ∀ (k : Nat) (c : α), CatSelector.ChainTo W S sel c k →
      CatSelector.ChainTo W S sel c (k + 1) := by
  intro k
  induction k with
  | zero => intro c h; exact absurd h (chainTo_zero W S sel c)
  | succ k ih =>
    intro c h
    rw [chainTo_succ] at h
    rw [chainTo_succ]
    obtain ⟨hc, p, hp, hor⟩ := h
    exact ⟨hc, p, hp, hor.imp id (ih p)⟩

theorem chainTo_mono (W : CatWorld α) (S sel : List α) {k k' : Nat}
    (hk : k ≤ k') (c : α) :
    CatSelector.ChainTo W S sel c k → CatSelector.ChainTo W S sel c k' := by
  induction hk with
  | refl => exact id
  | step h ih => exact fun hc => chainTo_mono_succ W S sel _ c (ih hc)

theorem chainTo_mono_set (W : CatWorld α) {S T : List α} (sel : List α)
    (hST : ∀ x ∈ S, x ∈ T) :
    ∀ (k : Nat) (c : α), CatSelector.ChainTo W S sel c k →
      CatSelector.ChainTo W T sel c k := by
  intro k
  induction k with
  | zero => intro c h; exact absurd h (chainTo_zero W S sel c)
  | succ k ih =>
    intro c h
    rw [chainTo_succ] at h
    rw [chainTo_succ]
    obtain ⟨hc, p, hp, hor⟩ := h
    exact ⟨hST c hc, p, hp, hor.imp id (ih p)⟩

theorem chainTo_splice (W : CatWorld α) (S sel sel' : List α)
    (hsel : ∀ p ∈ sel', CatSelector.ChainTo W S sel p 1) :
    ∀ (k : Nat) (c : α), CatSelector.ChainTo W S sel' c k →
      CatSelector.ChainTo W S sel c (k + 1) := by
  intro k
  induction k with
  | zero => intro c h; exact absurd h (chainTo_zero W S sel' c)
  | succ k ih =>
    intro c h
    rw [chainTo_succ] at h
    rw [chainTo_succ]
    obtain ⟨hc, p, hp, hor⟩ := h
    rcases hor with h' | h'
    · exact ⟨hc, p, hp, Or.inr
        (chainTo_mono W S sel (Nat.succ_le_succ (Nat.zero_le k)) p (hsel p h'))⟩
    · exact ⟨hc, p, hp, Or.inr (ih p h')⟩

theorem chainToB_iff (W : CatWorld α) (S sel : List α) :
    ∀ (k : Nat) (c : α),
      CatSelector.chainToB W S sel c k = true ↔ CatSelector.ChainTo W S sel c k := by
  intro k
  induction k with
  | zero =>
    intro c
    simp [CatSelector.chainToB, CatSelector.ChainTo]
  | succ k ih =>
    intro c
    rw [chainTo_succ]
    simp only [CatSelector.chainToB, Bool.and_eq_true, decide_eq_true_eq]
    cases hp : W.parent c with
    | none => simp
    | some p => simp [ih p]

theorem mem_newKidsOf (W : CatWorld α) (nested ptr : List α) (x : α) :
    x ∈ CatSelector.newKidsOf W nested ptr ↔
      x ∈ nested ∧ ∃ p, W.parent x = some p ∧ p ∈ ptr := by
  unfold CatSelector.newKidsOf
  rw [List.mem_filter]
  constructor
  · rintro ⟨hx, hf⟩
    refine ⟨hx, ?_⟩
    cases hp : W.parent x with
    | none => rw [hp] at hf; simp at hf
    | some p =>
      rw [hp] at hf
      exact ⟨p, rfl, by simpa using hf⟩
  · rintro ⟨hx, p, hp, hpp⟩
    refine ⟨hx, ?_⟩
    rw [hp]
    simpa using hpp

theorem collapseChildren_mem (W : CatWorld α) (nested0 : List α) :
    ∀ (fuel : Nat) (nested children removed ptr : List α),
      (∀ x, x ∈ nested ↔ x ∈ nested0 ∧ x ∉ children) →
      (∀ x ∈ children, x ∈ CatSelector.parentsOf W nested0 →
        x ∈ removed ∨ x ∈ ptr) →
      (∀ d ∈ nested, ∀ p, W.parent d = some p → p ∉ removed) →
      ∀ c, c ∈ CatSelector.collapseChildren W (CatSelector.parentsOf W nested0)
          fuel nested children removed ptr ↔
        (c ∈ children ∨ ∃ k, k ≤ fuel ∧ CatSelector.ChainTo W nested ptr c k) := by
  intro fuel
  induction fuel with
  | zero =>
    intro nested children removed ptr hN hI hR c
    have hred : CatSelector.collapseChildren W (CatSelector.parentsOf W nested0)
        0 nested children removed ptr = children := rfl
    rw [hred]
    constructor
    · exact fun h => Or.inl h
    · rintro (hc | ⟨k, hk, hch⟩)
      · exact hc
      · have hk0 : k = 0 := Nat.le_zero.mp hk
        subst hk0
        exact absurd hch (chainTo_zero W nested ptr c)
  | succ fuel ih =>
    intro nested children removed ptr hN hI hR c
    by_cases hptr : ptr.isEmpty
    · have hpnil : ptr = [] := by
        cases ptr with
        | nil => rfl
        | cons a l => simp [List.isEmpty] at hptr
      subst hpnil
      have hred : CatSelector.collapseChildren W (CatSelector.parentsOf W nested0)
          (fuel + 1) nested children removed [] = children := by
        simp [CatSelector.collapseChildren]
      rw [hred]
      constructor
      · exact fun h => Or.inl h
      · rintro (hc | ⟨k, hk, hch⟩)
        · exact hc
        · exact absurd hch (chainTo_nil_sel W nested k c)
    · simp only [CatSelector.collapseChildren]
      rw [if_neg hptr]
      set K := CatSelector.newKidsOf W nested ptr with hKdef
      set nested' :=
        nested.filter (fun c => decide (c ∉ children ++ K)) with hNdef
      set ptr' := (children ++ K).filter
        (fun c => decide (c ∈ CatSelector.parentsOf W nested0 ∧
          c ∉ removed ++ ptr)) with hPdef
      have hKmem : ∀ x, x ∈ K ↔
          x ∈ nested ∧ ∃ p, W.parent x = some p ∧ p ∈ ptr := by
        intro x
        rw [hKdef]
        exact mem_newKidsOf W nested ptr x
      have hN' : ∀ x, x ∈ nested' ↔ x ∈ nested0 ∧ x ∉ children ++ K := by
        intro x
        rw [hNdef, List.mem_filter]
        constructor
        · rintro ⟨hx, hd⟩
          exact ⟨((hN x).mp hx).1, by simpa using hd⟩
        · rintro ⟨hx0, hxc⟩
          have hxch : x ∉ children := fun hc => hxc (List.mem_append.mpr (Or.inl hc))
          exact ⟨(hN x).mpr ⟨hx0, hxch⟩, by simpa using hxc⟩
      have hI' : ∀ x ∈ children ++ K, x ∈ CatSelector.parentsOf W nested0 →
          x ∈ removed ++ ptr ∨ x ∈ ptr' := by
        intro x hx hxp
        by_cases hxr : x ∈ removed ++ ptr
        · exact Or.inl hxr
        · right
          rw [hPdef, List.mem_filter]
          exact ⟨hx, by simp [hxp, hxr]⟩
      have hR' : ∀ d ∈ nested', ∀ p, W.parent d = some p → p ∉ removed ++ ptr := by
        intro d hd p hp hmem
        have hdn : d ∈ nested ∧ d ∉ children ++ K := by
          have h1 := (List.mem_filter.mp (hNdef ▸ hd))
          exact ⟨h1.1, by simpa using h1.2⟩
        rcases List.mem_append.mp hmem with hr | hptr2
        · exact hR d hdn.1 p hp hr
        · have hdK : d ∈ K := (hKmem d).mpr ⟨hdn.1, p, hp, hptr2⟩
          exact hdn.2 (List.mem_append.mpr (Or.inr hdK))
      have hK1 : ∀ x ∈ K, CatSelector.ChainTo W nested ptr x 1 := by
        intro x hx
        obtain ⟨hxn, p, hp, hpp⟩ := (hKmem x).mp hx
        rw [chainTo_succ]
        exact ⟨hxn, p, hp, Or.inl hpp⟩
      have hptr'1 : ∀ p ∈ ptr', CatSelector.ChainTo W nested ptr p 1 := by
        intro p hp
        rw [hPdef, List.mem_filter] at hp
        obtain ⟨hpc, hcond⟩ := hp
        have hcond' : p ∈ CatSelector.parentsOf W nested0 ∧ p ∉ removed ++ ptr := by
          simpa using hcond
        rcases List.mem_append.mp hpc with hpch | hpK
        · rcases hI p hpch hcond'.1 with hr | hpt
          · exact absurd (List.mem_append.mpr (Or.inl hr)) hcond'.2
          · exact absurd (List.mem_append.mpr (Or.inr hpt)) hcond'.2
        · exact hK1 p hpK
      have hsub : ∀ x ∈ nested', x ∈ nested := by
        intro x hx
        exact (List.mem_filter.mp (hNdef ▸ hx)).1
      have key : ∀ (k : Nat) (x : α), CatSelector.ChainTo W nested ptr x k →
          x ∈ K ∨ ∃ j, j + 1 ≤ k ∧ CatSelector.ChainTo W nested' ptr' x j := by
        intro k
        induction k with
        | zero => intro x hx; exact absurd hx (chainTo_zero W nested ptr x)
        | succ k ihk =>
          intro x hx
          rw [chainTo_succ] at hx
          obtain ⟨hxn, p, hp, hor⟩ := hx
          by_cases hxK : x ∈ K
          · exact Or.inl hxK
          · have hpptr : p ∉ ptr := by
              intro hpp
              exact hxK ((hKmem x).mpr ⟨hxn, p, hp, hpp⟩)
            have hchp : CatSelector.ChainTo W nested ptr p k := by
              rcases hor with h | h
              · exact absurd h hpptr
              · exact h
            have hxnested' : x ∈ nested' := by
              refine (hN' x).mpr ⟨((hN x).mp hxn).1, ?_⟩
              intro hh
              rcases List.mem_append.mp hh with h | h
              · exact ((hN x).mp hxn).2 h
              · exact hxK h
            rcases ihk p hchp with hpK | ⟨j, hj, hchj⟩
            · have hk1 : 1 ≤ k := by
                cases k with
                | zero => exact absurd hchp (chainTo_zero W nested ptr p)
                | succ k => exact Nat.succ_le_succ (Nat.zero_le k)
              have hpptr' : p ∈ ptr' := by
                rw [hPdef, List.mem_filter]
                constructor
                · exact List.mem_append.mpr (Or.inr hpK)
                · have hpparents : p ∈ CatSelector.parentsOf W nested0 := by
                    rw [CatSelector.parentsOf, List.mem_filterMap]
                    exact ⟨x, ((hN x).mp hxn).1, hp⟩
                  have hpremoved : p ∉ removed := hR x hxn p hp
                  simp only [decide_eq_true_eq, List.mem_append]
                  exact ⟨hpparents, fun hh => hh.elim hpremoved hpptr⟩
              refine Or.inr ⟨1, by omega, ?_⟩
              rw [chainTo_succ]
              exact ⟨hxnested', p, hp, Or.inl hpptr'⟩
            · refine Or.inr ⟨j + 1, by omega, ?_⟩
              rw [chainTo_succ]
              exact ⟨hxnested', p, hp, Or.inr hchj⟩
      rw [ih nested' (children ++ K) (removed ++ ptr) ptr' hN' hI' hR' c]
      constructor
      · rintro (hc | ⟨k, hk, hch⟩)
        · rcases List.mem_append.mp hc with h | h
          · exact Or.inl h
          · exact Or.inr ⟨1, Nat.succ_le_succ (Nat.zero_le fuel), hK1 c h⟩
        · right
          refine ⟨k + 1, Nat.succ_le_succ hk, ?_⟩
          exact chainTo_splice W nested ptr ptr' hptr'1 k c
            (chainTo_mono_set W ptr' hsub k c hch)
      · rintro (hc | ⟨k, hk, hch⟩)
        · exact Or.inl (List.mem_append.mpr (Or.inl hc))
        · rcases key k c hch with hcK | ⟨j, hj, hchj⟩
          · exact Or.inl (List.mem_append.mpr (Or.inr hcK))
          · exact Or.inr ⟨j, by omega, hchj⟩

theorem collapse_children_iff (W : CatWorld α) (w : Widget α) (cats : List α)
    (maxN : Nat) (c : α) :
    c ∈ CatSelector.collapseChildren W
        (CatSelector.parentsOf W (CatSelector.nestedOf W w.options)) maxN
        (CatSelector.nestedOf W w.options) [] [] cats ↔
      CatSelector.ChainTo W (CatSelector.nestedOf W w.options) cats c maxN := by
  have h := collapseChildren_mem W (CatSelector.nestedOf W w.options) maxN
    (CatSelector.nestedOf W w.options) [] [] cats (by simp) (by simp) (by simp) c
  rw [h]
  constructor
  · rintro (hc | ⟨k, hk, hch⟩)
    · simp at hc
    · exact chainTo_mono W _ cats hk c hch
  · intro hch
    exact Or.inr ⟨maxN, Nat.le_refl maxN, hch⟩

theorem collapseIters_le (W : CatWorld α) (parents : List α) :
    ∀ (fuel : Nat) (nested children removed ptr : List α),
      CatSelector.collapseIters W parents fuel nested children removed ptr ≤ fuel := by
  intro fuel
  induction fuel with
  | zero =>
    intro nested children removed ptr
    simp [CatSelector.collapseIters]
  | succ fuel ih =>
    intro nested children removed ptr
    by_cases hptr : ptr.isEmpty
    · simp only [CatSelector.collapseIters]
      rw [if_pos hptr]
      exact Nat.zero_le _
    · simp only [CatSelector.collapseIters]
      rw [if_neg hptr]
      exact Nat.succ_le_succ (ih _ _ _ _)

/-- Claim C4: `remove_selected` removes from the options exactly the
currently selected cats together with every option whose chain of
parent-catalog links (through nested option values), of length at most the
nesting bound `10`, reaches a selected catalog — and nothing else; the
surviving entries keep their labels and order. -/
theorem remove_selected_removes_nested (W : CatWorld α) (w : Widget α) :
    (CatSelector.remove_selected W w).options =
      w.options.filter (fun p =>
        !(decide (p.2 ∈ w.value) ||
          CatSelector.chainToB W (CatSelector.nestedOf W w.options) w.value p.2 10)) := by
  have h1 : (CatSelector.remove_selected W w).options =
      (w.options.filter (fun p => decide (p.2 ∉ CatSelector.collapseChildren W
        (CatSelector.parentsOf W (CatSelector.nestedOf W w.options)) 10
        (CatSelector.nestedOf W w.options) [] [] w.value))).filter
        (fun p => decide (p.2 ∉ w.value)) := rfl
  rw [h1, List.filter_filter]
  apply List.filter_congr
  intro a _
  rw [Bool.eq_iff_iff]
  simp only [Bool.and_eq_true, decide_eq_true_eq, Bool.not_eq_true',
    Bool.or_eq_false_iff, decide_eq_false_iff_not]
  constructor
  · rintro ⟨hval, hCH⟩
    refine ⟨hval, ?_⟩
    cases hcb : CatSelector.chainToB W (CatSelector.nestedOf W w.options)
        w.value a.2 10 with
    | false => rfl
    | true =>
      exact absurd ((collapse_children_iff W w w.value 10 a.2).mpr
        ((chainToB_iff W (CatSelector.nestedOf W w.options) w.value 10 a.2).mp hcb)) hCH
  · rintro ⟨hval, hcb⟩
    refine ⟨hval, ?_⟩
    intro hmemCH
    have hch := (collapse_children_iff W w w.value 10 a.2).mp hmemCH
    have hcbt := (chainToB_iff W (CatSelector.nestedOf W w.options) w.value 10 a.2).mpr hch
    rw [hcb] at hcbt
    exact Bool.false_ne_true hcbt

/-- Claim C8: the `collapse_nested` while loop executes at most
`max_nestedness` iterations (the default is `10`): `nestedness` is
decremented on every pass and the loop condition requires `nestedness > 0`.
No acyclicity of the parent-catalog relation is assumed, so the loop
terminates even on cyclic inputs. -/
theorem collapse_nested_iterations_le (W : CatWorld α) (w : Widget α)
    (cats : List α) (max_nestedness : Nat) :
    CatSelector.collapse_nested_iterations W w cats max_nestedness ≤
      max_nestedness :=
  collapseIters_le W (CatSelector.parentsOf W (CatSelector.nestedOf W w.options))
    max_nestedness (CatSelector.nestedOf W w.options) [] [] cats

/-- Claim C2 (amended): when the selection changes to a non-empty list whose
first element `got` is already among the option values, and the labels
generated for the children of `got` are pairwise distinct and do not collide
with any existing label, `expand_nested` inserts the child catalogs of `got`
(its entries whose container is `catalog`) immediately after the first
occurrence of `got`, one per child in entry order, each labelled with the
tree prefix derived from the parent label, while every pre-existing option
keeps its label, value and relative order.  (Without the label-freshness
hypotheses the final `dict(old)` deduplicates by label and the claim fails,
see the counterexample.) -/
theorem expand_nested_inserts_children (W : CatWorld α) (w : Widget α)
    (got : α) (rest : List α) (A B : List (String × α)) (nm : String)
    (hsplit : w.options = A ++ (nm, got) :: B)
    (hfirst : got ∉ A.map Prod.snd)
    (hkeys : (w.options.map Prod.fst).Nodup)
    (hkidsNodup : ((CatSelector.get_children W got).map
        (fun c => CatSelector.tree_pre nm ++ " " ++ W.name c)).Nodup)
    (hfresh : ∀ l ∈ (CatSelector.get_children W got).map
        (fun c => CatSelector.tree_pre nm ++ " " ++ W.name c),
        l ∉ w.options.map Prod.fst) :
    CatSelector.expand_nested W w (got :: rest) =
      some { w with options := A ++ (nm, got) ::
        ((CatSelector.get_children W got).map
          (fun c => (CatSelector.tree_pre nm ++ " " ++ W.name c, c)) ++ B) } := by
  have hpA : ∀ a ∈ A, (fun p => decide (p.2 = got)) a = false := by
    intro a ha
    simp only [decide_eq_false_iff_not]
    intro he
    exact hfirst (he ▸ List.mem_map_of_mem Prod.snd ha)
  have hfind : w.options.find? (fun p => decide (p.2 = got)) = some (nm, got) := by
    rw [hsplit]
    exact find?_first _ A (nm, got) B hpA (by simp)
  have hidx : w.options.findIdx (fun p => decide (p.2 = got)) = A.length := by
    rw [hsplit]
    exact findIdx_first _ A (nm, got) B hpA (by simp)
  have hlen : A.length + 1 ≤ w.options.length := by
    rw [hsplit]
    simp only [List.length_append, List.length_cons]
    omega
  have htake : w.options.take (A.length + 1) = A ++ [(nm, got)] := by
    rw [hsplit, show A ++ (nm, got) :: B = (A ++ [(nm, got)]) ++ B by simp,
      show A.length + 1 = (A ++ [(nm, got)]).length by simp, List.take_left]
  have hdrop : w.options.drop (A.length + 1) = B := by
    rw [hsplit, show A ++ (nm, got) :: B = (A ++ [(nm, got)]) ++ B by simp,
      show A.length + 1 = (A ++ [(nm, got)]).length by simp, List.drop_left]
  have hwkeys : (A.map Prod.fst ++ nm :: B.map Prod.fst).Nodup := by
    have h := hkeys
    rw [hsplit] at h
    simpa using h
  have hdisj : ∀ x ∈ (CatSelector.get_children W got).map
      (fun c => CatSelector.tree_pre nm ++ " " ++ W.name c),
      x ∉ A.map Prod.fst ++ nm :: B.map Prod.fst := by
    intro x hx
    have h := hfresh x hx
    rw [hsplit] at h
    simpa using h
  have hbig : ((A.map Prod.fst ++ nm :: B.map Prod.fst) ++
      (CatSelector.get_children W got).map
        (fun c => CatSelector.tree_pre nm ++ " " ++ W.name c)).Nodup := by
    refine List.nodup_append.mpr ⟨hwkeys, hkidsNodup, ?_⟩
    intro a ha haK
    exact hdisj a haK ha
  have hperm : List.Perm
      ((A.map Prod.fst ++ nm :: B.map Prod.fst) ++
        (CatSelector.get_children W got).map
          (fun c => CatSelector.tree_pre nm ++ " " ++ W.name c))
      (A.map Prod.fst ++ nm :: ((CatSelector.get_children W got).map
        (fun c => CatSelector.tree_pre nm ++ " " ++ W.name c) ++ B.map Prod.fst)) := by
    have h1 : (A.map Prod.fst ++ nm :: B.map Prod.fst) ++
        (CatSelector.get_children W got).map
          (fun c => CatSelector.tree_pre nm ++ " " ++ W.name c)
        = A.map Prod.fst ++ nm :: (B.map Prod.fst ++
            (CatSelector.get_children W got).map
              (fun c => CatSelector.tree_pre nm ++ " " ++ W.name c)) := by
      simp
    rw [h1]
    exact List.Perm.append_left _ (List.Perm.cons _ List.perm_append_comm)
  have hkeysBig : ((A ++ [(nm, got)] ++
      ((CatSelector.get_children W got).map
        (fun c => (CatSelector.tree_pre nm ++ " " ++ W.name c, c)) ++ B)).map
      Prod.fst).Nodup := by
    have h := hperm.nodup hbig
    simpa [List.map_map, Function.comp_def] using h
  simp only [CatSelector.expand_nested, hfind, hidx]
  rw [insertChildrenFrom_eq W (CatSelector.tree_pre nm)
    (CatSelector.get_children W got) (A.length + 1) w.options hlen]
  rw [htake, hdrop]
  rw [show A ++ [(nm, got)] ++
      (CatSelector.get_children W got).map
        (fun c => (CatSelector.tree_pre nm ++ " " ++ W.name c, c)) ++ B =
    A ++ [(nm, got)] ++
      ((CatSelector.get_children W got).map
        (fun c => (CatSelector.tree_pre nm ++ " " ++ W.name c, c)) ++ B) by simp]
  rw [dictOfList_of_nodup _ hkeysBig]
  simp

/-- Witness for C2 at a concrete input: expanding catalog `1` inserts its
child catalog `2` right after it, labelled with the tree prefix. -/
theorem expand_nested_inserts_children_witness :
    CatSelector.expand_nested worldC2 widgetC2 [1] =
      some { options := [("c", 1), ("└── k2", 2)], value := [1] } := by
  have h := expand_nested_inserts_children worldC2 widgetC2 1 [] [] []
    "c" (by rfl) (by decide) (by decide) (by decide) (by decide)
  exact h.trans (by decide)

/-- Counterexample for C2 as stated: catalog `1` (an option value) has the
child catalog `3`, whose generated label `└── x` collides with the label of
the pre-existing option `2`.  The final `dict(old)` deduplicates by label
(first position, last value), so the child `3` is not inserted at all — the
resulting options are unchanged — contradicting the claim that the child
catalogs are inserted after the parent position. -/
theorem expand_nested_label_collision_drops_child :
    3 ∈ CatSelector.get_children worldC2x 1 ∧
    CatSelector.expand_nested worldC2x widgetC2x [1] =
      some { options := [("c", 1), ("└── x", 2)], value := [1] } := by decide

end SourceSelect
